import Mathlib

/-!
# Verification of the fava-query HTML-to-record extraction logic

Shallow embedding of `src/main.rs` (repository AlanLang/fava-query).

The HTML parsing done by the `nipper` crate is treated as an external
collaborator: an HTML table document is embedded as the list of the raw
(untrimmed) texts of its header cells together with the list of data rows,
each row being the list of the raw texts of its data cells; an account
document is embedded as the list of its transaction lines, each line giving
the raw texts of its `.datecell`, `.change` and `span:nth-child(6)`
selections.  Rust's `HashMap<String, String>` is embedded as an association
list with overwrite-on-insert semantics.  Rust panics (`.unwrap()`) are
embedded as `Option.none`.  Rust's `str::trim` and `str::replace` are
embedded structurally over character lists.  The `f32` values parsed from
the amount cells are embedded as exact scaled decimals (`Dec`): `parseDecimal`
models the plain signed decimal fragment of Rust's `f32::from_str` and
`decStr` models rendering a numeric value back to a string.
-/

set_option autoImplicit false

namespace FavaQuery

/-- Embedding of Rust's `HashMap<String, String>`: an association list whose
`insert` removes any previous binding of the key. -/
abbrev StrMap : Type := List (String × String)

/-- Rust `HashMap::insert`: overwrite any existing binding of the key. -/
def StrMap.insert (m : StrMap) (k v : String) : StrMap :=
  List.filter (fun p => p.1 != k) m ++ [(k, v)]

/-- Rust `HashMap::get`: the value bound to the key, if any. -/
def StrMap.get (m : StrMap) (k : String) : Option String :=
  Option.map Prod.snd (List.find? (fun p => p.1 == k) m)

/-- The empty map. -/
def StrMap.empty : StrMap := []

/-- Model of Rust's `str::trim`: drop whitespace from both ends. -/
def strTrim (s : String) : String :=
  ⟨(((s.data.dropWhile Char.isWhitespace).reverse.dropWhile Char.isWhitespace)).reverse⟩

/-- Remove every occurrence of `CNY`, scanning left to right: model of the
`.replace("CNY", "")` call of main.rs lines 135 and 142. -/
def removeCNY : List Char → List Char
  | 'C' :: 'N' :: 'Y' :: rest => removeCNY rest
  | c :: rest => c :: removeCNY rest
  | [] => []

/-- The amount preprocessing of main.rs lines 132-145:
`.replace("CNY", "").trim()`. -/
def stripCurrency (s : String) : String :=
  strTrim ⟨removeCNY s.data⟩

/-- An HTML table document, abstracted by nipper's selections in
`get_table_data`: the texts of the `thead tr th` cells in document order, and
for each `tbody tr` the texts of its `td` cells in document order. -/
structure HtmlTable where
  headerCells : List String
  dataRows : List (List String)

/-- One iteration group of the `for (i, el) in node.select("td")` loop of
`get_table_data` (main.rs lines 111-115): walk the data cells of one row with
their index, look the title up with `titles.get(i).unwrap()` — `none` models
the panic when no title exists at that index — and insert the trimmed cell
text under the title. -/
def buildLine (titles : List String) : List String → Nat → StrMap → Option StrMap
  | [], _, line => some line
  | cell :: cells, i, line =>
    match titles[i]? with
    | none => none
    | some title => buildLine titles cells (i + 1) (StrMap.insert line title (strTrim cell))

/-- The row loop of `get_table_data` (main.rs lines 108-117): build one record
per data row, in row order; a panic anywhere aborts the whole extraction. -/
def buildRows (titles : List String) : List (List String) → Option (List StrMap)
  | [] => some []
  | row :: rest =>
    match buildLine titles row 0 StrMap.empty with
    | none => none
    | some line => Option.map (fun ls => line :: ls) (buildRows titles rest)

/-- `get_table_data` (main.rs lines 98-119).  The `titles` vector is the raw
text of each header cell (`node.text().to_string()`, no trimming). -/
def get_table_data (t : HtmlTable) : Option (List StrMap) :=
  buildRows t.headerCells t.dataRows

/-- One `.transaction` line of an account document, abstracted by the texts of
the selections used in `get_account_data`: `.datecell`, `.change` and
`span:nth-child(6)`. -/
structure TxLine where
  datecell : String
  change : String
  balance6 : String

/-- An account HTML document, abstracted as its `.flex-table .transaction`
lines in document order. -/
structure AccountDoc where
  lines : List TxLine

/-- The `negate` query parameter (`AccountParams`, main.rs lines 174-177). -/
structure AccountParams where
  negate : Option Bool

/-- An exact scaled decimal: the value `mant / 10 ^ scale`.  This embeds the
`f32` amounts of `get_account_data`; negation is exact in both. -/
structure Dec where
  mant : Int
  scale : Nat
deriving DecidableEq

/-- Accumulate a digit string into a natural number. -/
def digitsToNat (acc : Nat) : List Char → Nat
  | [] => acc
  | c :: cs => digitsToNat (acc * 10 + (c.toNat - '0'.toNat)) cs

/-- Model of the plain signed decimal fragment of Rust's `str::parse::<f32>`:
an optional sign, then digits with an optional fractional part (at least one
digit overall), rejecting anything else.  Exponents and the `inf`/`nan`
spellings are outside the model; the parsed value is kept exact. -/
def parseDecimal (s : String) : Option Dec :=
  let cs := s.data
  let signNeg : Bool := match cs with
    | '-' :: _ => true
    | _ => false
  let rest : List Char := match cs with
    | '-' :: r => r
    | '+' :: r => r
    | _ => cs
  let intDigits := rest.takeWhile Char.isDigit
  let afterInt := rest.dropWhile Char.isDigit
  let signed : Nat → Int := fun n => if signNeg then -(n : Int) else (n : Int)
  match afterInt with
  | [] =>
    if intDigits.isEmpty then none
    else some ⟨signed (digitsToNat 0 intDigits), 0⟩
  | '.' :: fracDigits =>
    if fracDigits.all Char.isDigit && !(intDigits.isEmpty && fracDigits.isEmpty) then
      some ⟨signed (digitsToNat 0 (intDigits ++ fracDigits)), fracDigits.length⟩
    else none
  | _ => none

/-- Model of rendering a numeric value back to a string
(`changed.to_string()`): sign, then the digits with a decimal point inserted
`scale` places from the right. -/
def decStr (d : Dec) : String :=
  let sign := if d.mant < 0 then "-" else ""
  let ds := (toString d.mant.natAbs).data
  let ds := List.replicate (d.scale + 1 - ds.length) '0' ++ ds
  let intPart : List Char := ds.take (ds.length - d.scale)
  let fracPart : List Char := ds.drop (ds.length - d.scale)
  sign ++ ⟨intPart⟩ ++ (if d.scale = 0 then "" else "." ++ ⟨fracPart⟩)

/-- The sign flip applied by `get_account_data` when `negate` is set
(main.rs lines 147-150): `changed = 0.0 - changed`. -/
def negFlip (d : Dec) : Dec := ⟨0 - d.mant, d.scale⟩

/-- The body of the `.transaction` loop of `get_account_data` after the
dedup check (main.rs lines 132-154): parse the stripped change and balance
texts (`none` models the `.unwrap()` panic), flip the signs when
`Some(true) == params.negate`, and build the record by three inserts. -/
def mkRecord (negate : Option Bool) (l : TxLine) : Option StrMap :=
  match parseDecimal (stripCurrency l.change) with
  | none => none
  | some changed =>
    match parseDecimal (stripCurrency l.balance6) with
    | none => none
    | some balance =>
      let changed := if some true = negate then negFlip changed else changed
      let balance := if some true = negate then negFlip balance else balance
      some (StrMap.insert (StrMap.insert (StrMap.insert StrMap.empty
        "date" l.datecell) "changed" (decStr changed)) "balance" (decStr balance))

/-- The `.transaction` loop of `get_account_data` (main.rs lines 126-155):
skip a line when some already-accepted record has a `"date"` value equal to
this line's date text, otherwise build its record and push it. -/
def accLines (negate : Option Bool) : List TxLine → List StrMap → Option (List StrMap)
  | [], result => some result
  | l :: ls, result =>
    if ∃ item ∈ result, StrMap.get item "date" = some l.datecell then
      accLines negate ls result
    else
      match mkRecord negate l with
      | none => none
      | some item => accLines negate ls (result ++ [item])

/-- `get_account_data` (main.rs lines 121-158): process the transaction lines
in document order, then reverse the result. -/
def get_account_data (doc : AccountDoc) (params : AccountParams) : Option (List StrMap) :=
  Option.map List.reverse (accLines params.negate doc.lines [])

/-- A handler response body: `SuccessResult` (`success: true` plus data) or
`ErrorResult` (`success: false` plus an error string).  Both are serialized
with HTTP status 200. -/
inductive HandlerResult where
  | success (data : List StrMap)
  | failure (error : String)
deriving DecidableEq

/-- The `account` handler (main.rs lines 37-46) past the upstream fetch: a
transport error becomes an `ErrorResult`, otherwise the fetched document is
run through `get_account_data` (whose panic, `none`, produces no response
body at all). -/
def account (fetch : Except String AccountDoc) (params : AccountParams) : Option HandlerResult :=
  match fetch with
  | .error e => some (.failure e)
  | .ok doc => Option.map HandlerResult.success (get_account_data doc params)

/-- `QueryResultData` (main.rs lines 186-189), with the `table` HTML string
abstracted as a parsed table. -/
structure QueryResultData where
  table : HtmlTable

/-- The upstream JSON envelope `QueryResult` (main.rs lines 179-184). -/
structure QueryResult where
  error : Option String
  success : Bool
  data : Option QueryResultData

/-- The `query` handler (main.rs lines 48-67) past the upstream fetch. -/
def query (fetch : Except String QueryResult) : Option HandlerResult :=
  match fetch with
  | .error e => some (.failure e)
  | .ok result =>
    if result.success then
      match result.data with
      | some d => Option.map HandlerResult.success (get_table_data d.table)
      | none => some (.success [])
    else
      some (.failure (result.error.getD "Something went wrong"))

/-- Reference form of fallible traversal: `some` of the image when every
element succeeds, `none` as soon as one fails. -/
def optionMapM {α β : Type} (f : α → Option β) : List α → Option (List β)
  | [] => some []
  | a :: as =>
    match f a with
    | none => none
    | some b => Option.map (fun bs => b :: bs) (optionMapM f as)

/-- Reference form of the keep-first-by-date policy: the sublist of the lines
whose date text was not seen before, threading the seen dates (as the
optional `"date"` values of the accepted records) left to right. -/
def dedupO (seen : List (Option String)) : List TxLine → List TxLine
  | [] => []
  | l :: ls =>
    if some l.datecell ∈ seen then dedupO seen ls
    else l :: dedupO (seen ++ [some l.datecell]) ls

/-- The accepted (post-deduplication) transaction records in
document-encounter order, following the spec's description of the ledger
extraction before the final reversal. -/
def acceptedTransactions (doc : AccountDoc) (negate : Option Bool) : Option (List StrMap) :=
  optionMapM (mkRecord negate) (dedupO [] doc.lines)

/-- Keep the first occurrence of each string, in order. -/
def firstOccAux (seen : List String) : List String → List String
  | [] => []
  | d :: ds =>
    if d ∈ seen then firstOccAux seen ds
    else d :: firstOccAux (seen ++ [d]) ds

/-- The first occurrences of the elements of a list, in order of first
appearance. -/
def firstOccurrences (ds : List String) : List String :=
  firstOccAux [] ds

/-- Keep-first-by-date over transaction lines, threading the set of already
seen date texts: a line whose date was seen before is skipped entirely, a
line with a fresh date survives and marks its date as seen. -/
def keepFirstAux (seen : List String) : List TxLine → List TxLine
  | [] => []
  | l :: ls =>
    if l.datecell ∈ seen then keepFirstAux seen ls
    else l :: keepFirstAux (seen ++ [l.datecell]) ls

/-- The sublist of transaction lines that keeps, for each date text, only
the first line in document order. -/
def keepFirstByDate (lines : List TxLine) : List TxLine :=
  keepFirstAux [] lines

/-- Insert one positional cell: the step function of the per-row loop. -/
def insTrim (m : StrMap) (p : String × String) : StrMap :=
  StrMap.insert m p.1 (strTrim p.2)

/-- Pointwise relation between a record extracted without `negate` and the
record extracted from the same line with `negate=true`. -/
def negRel (r r' : StrMap) : Prop :=
  StrMap.get r' "date" = StrMap.get r "date" ∧
  ∃ c b : Dec, StrMap.get r "changed" = some (decStr c) ∧
    StrMap.get r' "changed" = some (decStr (negFlip c)) ∧
    StrMap.get r "balance" = some (decStr b) ∧
    StrMap.get r' "balance" = some (decStr (negFlip b))

/-- A sample account document: two lines sharing the date `2024-01-01`
followed by a line dated `2024-01-02` (the worked example of the spec). -/
def sampleDoc : AccountDoc :=
  ⟨[⟨"2024-01-01", "100 CNY", "500 CNY"⟩,
    ⟨"2024-01-01", "999 CNY", "999 CNY"⟩,
    ⟨"2024-01-02", "-50 CNY", "450 CNY"⟩]⟩

/-- The ledger extracted from `sampleDoc` without negation. -/
def sampleRecs : List StrMap :=
  [[("date", "2024-01-02"), ("changed", "-50"), ("balance", "450")],
   [("date", "2024-01-01"), ("changed", "100"), ("balance", "500")]]

/-! ## Lemmas about the generic table extractor -/

theorem buildLine_eq_some (titles : List String) (cells : List String) :
    ∀ (i : Nat) (line : StrMap), i + cells.length ≤ titles.length →
      buildLine titles cells i line =
        some (((titles.drop i).zip cells).foldl insTrim line) := by
  induction cells with
  | nil => intro i line _; simp [buildLine]
  | cons cell cells ih =>
    intro i line h
    have hi : i < titles.length := by simp at h; omega
    have hget : titles[i]? = some titles[i] := List.getElem?_eq_getElem hi
    have hdrop : titles.drop i = titles[i] :: titles.drop (i + 1) :=
      List.drop_eq_getElem_cons hi
    rw [hdrop, List.zip_cons_cons, List.foldl_cons]
    simp only [buildLine, hget]
    rw [ih (i + 1) _ (by simp at h ⊢; omega)]
    rfl

theorem buildLine_eq_none (titles : List String) (cells : List String) :
    ∀ (i : Nat) (line : StrMap), titles.length < i + cells.length → cells ≠ [] →
      buildLine titles cells i line = none := by
  induction cells with
  | nil => intro i line _ hne; exact absurd rfl hne
  | cons cell cells ih =>
    intro i line h _
    cases hg : titles[i]? with
    | none => simp [buildLine, hg]
    | some title =>
      have hi : i < titles.length := by
        by_contra hle
        rw [List.getElem?_eq_none (by omega)] at hg
        cases hg
      cases cells with
      | nil => simp at h; omega
      | cons c cs =>
        simp only [buildLine, hg]
        exact ih (i + 1) _ (by simp at h ⊢; omega) (by simp)

theorem buildRows_eq_some (titles : List String) (rows : List (List String))
    (h : ∀ row ∈ rows, row.length ≤ titles.length) :
    buildRows titles rows =
      some (rows.map (fun row => (titles.zip row).foldl insTrim StrMap.empty)) := by
  induction rows with
  | nil => rfl
  | cons row rest ih =>
    have h1 : (0 : Nat) + row.length ≤ titles.length := by
      simpa using h row (by simp)
    simp only [buildRows, buildLine_eq_some titles row 0 StrMap.empty h1]
    rw [ih (fun r hr => h r (by simp [hr]))]
    simp

theorem buildRows_eq_none (titles : List String) (rows : List (List String))
    (h : ∃ row ∈ rows, titles.length < row.length) :
    buildRows titles rows = none := by
  induction rows with
  | nil => simp at h
  | cons row rest ih =>
    rcases h with ⟨bad, hbad, hlen⟩
    rcases List.mem_cons.mp hbad with rfl | hbad
    · have : bad ≠ [] := by
        intro hnil; rw [hnil] at hlen; simp at hlen
      simp only [buildRows, buildLine_eq_none titles bad 0 StrMap.empty (by omega) this]
    · cases hg : buildLine titles row 0 StrMap.empty with
      | none => simp [buildRows, hg]
      | some line => simp [buildRows, hg, ih ⟨bad, hbad, hlen⟩]

theorem foldl_insTrim_fresh :
    ∀ (l : List (String × String)) (acc : StrMap),
      (l.map Prod.fst).Nodup → (∀ p ∈ l, ∀ q ∈ acc, q.1 ≠ p.1) →
      l.foldl insTrim acc = acc ++ l.map (fun p => (p.1, strTrim p.2)) := by
  intro l
  induction l with
  | nil => intro acc _ _; simp
  | cons p ps ih =>
    intro acc hnd hfresh
    have hstep : insTrim acc p = acc ++ [(p.1, strTrim p.2)] := by
      unfold insTrim StrMap.insert
      congr 1
      rw [List.filter_eq_self]
      intro q hq
      simpa using hfresh p (by simp) q hq
    rw [List.map_cons] at hnd
    have hnotmem : p.1 ∉ ps.map Prod.fst := (List.nodup_cons.mp hnd).1
    have hndtail : (ps.map Prod.fst).Nodup := (List.nodup_cons.mp hnd).2
    have hhead : ∀ p' ∈ ps, p.1 ≠ p'.1 := by
      intro p' hp' he
      rw [he] at hnotmem
      exact hnotmem (List.mem_map_of_mem Prod.fst hp')
    rw [List.foldl_cons, hstep, ih _ hndtail ?_]
    · simp
    · intro p' hp' q hq
      rcases List.mem_append.mp hq with hq | hq
      · exact hfresh p' (by simp [hp']) q hq
      · simp at hq
        rw [hq]
        exact hhead p' hp'

theorem map_fst_zip_take {α β : Type} :
    ∀ (l₁ : List α) (l₂ : List β), (l₁.zip l₂).map Prod.fst = l₁.take l₂.length := by
  intro l₁
  induction l₁ with
  | nil => intro l₂; simp
  | cons a as ih =>
    intro l₂
    cases l₂ with
    | nil => simp
    | cons b bs => simp [List.zip_cons_cons, ih]

theorem zip_keys_nodup (titles : List String) (row : List String)
    (hnd : titles.Nodup) : ((titles.zip row).map Prod.fst).Nodup := by
  rw [map_fst_zip_take]
  exact hnd.sublist (List.take_sublist _ _)

/-! ## Lemmas about the account ledger extractor -/

theorem mkRecord_shape (negate : Option Bool) (l : TxLine) (r : StrMap)
    (h : mkRecord negate l = some r) :
    ∃ c b : Dec, parseDecimal (stripCurrency l.change) = some c ∧
      parseDecimal (stripCurrency l.balance6) = some b ∧
      r = [("date", l.datecell),
           ("changed", decStr (if some true = negate then negFlip c else c)),
           ("balance", decStr (if some true = negate then negFlip b else b))] := by
  cases hc : parseDecimal (stripCurrency l.change) with
  | none => rw [mkRecord, hc] at h; cases h
  | some c =>
    cases hb : parseDecimal (stripCurrency l.balance6) with
    | none => rw [mkRecord, hc, hb] at h; cases h
    | some b =>
      rw [mkRecord, hc, hb] at h
      exact ⟨c, b, rfl, rfl, (Option.some.inj h).symm⟩

theorem mkRecord_eq_none (negate : Option Bool) (l : TxLine)
    (h : parseDecimal (stripCurrency l.change) = none ∨
      parseDecimal (stripCurrency l.balance6) = none) :
    mkRecord negate l = none := by
  rcases h with h | h
  · rw [mkRecord, h]
  · cases hc : parseDecimal (stripCurrency l.change) with
    | none => rw [mkRecord, hc]
    | some c => rw [mkRecord, hc, h]

theorem mkRecord_date (negate : Option Bool) (l : TxLine) (r : StrMap)
    (h : mkRecord negate l = some r) :
    StrMap.get r "date" = some l.datecell := by
  obtain ⟨c, b, _, _, rfl⟩ := mkRecord_shape negate l r h
  rfl

theorem optionMapM_eq_some_iff {α β : Type} (f : α → Option β) :
    ∀ (xs : List α) (ys : List β),
      optionMapM f xs = some ys ↔ List.Forall₂ (fun x y => f x = some y) xs ys := by
  intro xs
  induction xs with
  | nil =>
    intro ys
    constructor
    · intro h
      rw [optionMapM] at h
      rw [← Option.some.inj h]
      exact List.Forall₂.nil
    · intro h; cases h; rfl
  | cons a as ih =>
    intro ys
    constructor
    · intro h
      cases hf : f a with
      | none => rw [optionMapM, hf] at h; cases h
      | some b =>
        rw [optionMapM, hf] at h
        cases hrest : optionMapM f as with
        | none => rw [hrest] at h; cases h
        | some bs =>
          rw [hrest] at h
          rw [← Option.some.inj h]
          exact List.Forall₂.cons hf ((ih bs).mp hrest)
    · intro h
      cases h with
      | cons hf hrest =>
        rw [optionMapM, hf, (ih _).mpr hrest]
        rfl

theorem optionMapM_eq_none {α β : Type} (f : α → Option β) :
    ∀ (xs : List α), (∃ x ∈ xs, f x = none) → optionMapM f xs = none := by
  intro xs
  induction xs with
  | nil => intro h; simp at h
  | cons a as ih =>
    intro h
    rcases h with ⟨x, hx, hfx⟩
    rcases List.mem_cons.mp hx with rfl | hx
    · rw [optionMapM, hfx]
    · cases hf : f a with
      | none => rw [optionMapM, hf]
      | some b => rw [optionMapM, hf, ih ⟨x, hx, hfx⟩]; rfl

theorem optionMapM_mem {α β : Type} (f : α → Option β) :
    ∀ (xs : List α) (ys : List β) (y : β),
      optionMapM f xs = some ys → y ∈ ys → ∃ x ∈ xs, f x = some y := by
  intro xs
  induction xs with
  | nil =>
    intro ys y h hy
    rw [optionMapM] at h
    rw [← Option.some.inj h] at hy
    simp at hy
  | cons a as ih =>
    intro ys y h hy
    cases hf : f a with
    | none => rw [optionMapM, hf] at h; cases h
    | some b =>
      rw [optionMapM, hf] at h
      cases hrest : optionMapM f as with
      | none => rw [hrest] at h; cases h
      | some bs =>
        rw [hrest] at h
        rw [← Option.some.inj h] at hy
        rcases List.mem_cons.mp hy with rfl | hy
        · exact ⟨a, by simp, hf⟩
        · rcases ih bs y hrest hy with ⟨x, hx, hfx⟩
          exact ⟨x, by simp [hx], hfx⟩

theorem accLines_eq (negate : Option Bool) :
    ∀ (lines : List TxLine) (result : List StrMap),
      accLines negate lines result =
        Option.map (fun xs => result ++ xs)
          (optionMapM (mkRecord negate)
            (dedupO (result.map (fun r => StrMap.get r "date")) lines)) := by
  intro lines
  induction lines with
  | nil => intro result; simp [accLines, optionMapM, dedupO]
  | cons l ls ih =>
    intro result
    by_cases hseen : ∃ item ∈ result, StrMap.get item "date" = some l.datecell
    · have hmem : some l.datecell ∈ result.map (fun r => StrMap.get r "date") := by
        rcases hseen with ⟨item, hitem, hd⟩
        exact List.mem_map.mpr ⟨item, hitem, hd⟩
      rw [accLines.eq_2, if_pos hseen, dedupO.eq_2, if_pos hmem]
      exact ih result
    · have hmem : some l.datecell ∉ result.map (fun r => StrMap.get r "date") := by
        intro hm
        rcases List.mem_map.mp hm with ⟨item, hitem, hd⟩
        exact hseen ⟨item, hitem, hd⟩
      rw [accLines.eq_2, if_neg hseen, dedupO.eq_2, if_neg hmem]
      cases hmk : mkRecord negate l with
      | none => rw [optionMapM, hmk]; rfl
      | some item =>
        show accLines negate ls (result ++ [item]) = _
        rw [ih (result ++ [item])]
        have hdates : (result ++ [item]).map (fun r => StrMap.get r "date")
            = result.map (fun r => StrMap.get r "date") ++ [some l.datecell] := by
          rw [List.map_append]
          simp [mkRecord_date negate l item hmk]
        rw [hdates, optionMapM, hmk]
        cases hrest : optionMapM (mkRecord negate)
            (dedupO (result.map (fun r => StrMap.get r "date") ++ [some l.datecell]) ls) with
        | none => rfl
        | some xs => simp

theorem get_account_data_eq (doc : AccountDoc) (params : AccountParams) :
    get_account_data doc params =
      Option.map List.reverse (acceptedTransactions doc params.negate) := by
  rw [get_account_data, acceptedTransactions, accLines_eq params.negate doc.lines []]
  show Option.map List.reverse (Option.map (fun xs => [] ++ xs)
      (optionMapM (mkRecord params.negate) (dedupO [] doc.lines))) = _
  cases optionMapM (mkRecord params.negate) (dedupO [] doc.lines) with
  | none => rfl
  | some xs => simp

theorem dedupO_map_datecell :
    ∀ (lines : List TxLine) (seenS : List String),
      (dedupO (seenS.map some) lines).map TxLine.datecell
        = firstOccAux seenS (lines.map TxLine.datecell) := by
  intro lines
  induction lines with
  | nil => intro s; rfl
  | cons l ls ih =>
    intro s
    by_cases h : l.datecell ∈ s
    · have h2 : some l.datecell ∈ s.map some := List.mem_map_of_mem some h
      rw [List.map_cons, dedupO.eq_2, if_pos h2, firstOccAux.eq_2, if_pos h]
      exact ih s
    · have h2 : some l.datecell ∉ s.map some := by
        intro hm
        rcases List.mem_map.mp hm with ⟨x, hx, he⟩
        rw [Option.some.inj he] at hx
        exact h hx
      rw [List.map_cons, dedupO.eq_2, if_neg h2, firstOccAux.eq_2, if_neg h, List.map_cons]
      have hseen : s.map some ++ [some l.datecell] = (s ++ [l.datecell]).map some := by
        rw [List.map_append]
        rfl
      rw [hseen, ih (s ++ [l.datecell])]

theorem keepFirstAux_congr :
    ∀ (ls : List TxLine) (s₁ s₂ : List String), (∀ x, x ∈ s₁ ↔ x ∈ s₂) →
      keepFirstAux s₁ ls = keepFirstAux s₂ ls := by
  intro ls
  induction ls with
  | nil => intro s₁ s₂ _; rfl
  | cons l ls ih =>
    intro s₁ s₂ hiff
    by_cases h : l.datecell ∈ s₁
    · rw [keepFirstAux.eq_2, if_pos h, keepFirstAux.eq_2, if_pos ((hiff _).mp h)]
      exact ih s₁ s₂ hiff
    · have h₂ : l.datecell ∉ s₂ := fun hx => h ((hiff _).mpr hx)
      rw [keepFirstAux.eq_2, if_neg h, keepFirstAux.eq_2, if_neg h₂]
      have hiff' : ∀ x, x ∈ s₁ ++ [l.datecell] ↔ x ∈ s₂ ++ [l.datecell] := by
        intro x
        rw [List.mem_append, List.mem_append, hiff x]
      rw [ih _ _ hiff']

theorem keepFirstAux_filter :
    ∀ (ls : List TxLine) (seen : List String) (d : String),
      keepFirstAux (seen ++ [d]) ls
        = keepFirstAux seen (ls.filter (fun x => x.datecell != d)) := by
  intro ls
  induction ls with
  | nil => intro seen d; rfl
  | cons l ls ih =>
    intro seen d
    by_cases hd : l.datecell = d
    · have hmem : l.datecell ∈ seen ++ [d] := by
        rw [List.mem_append]
        right
        simp [hd]
      have hfilter : (l :: ls).filter (fun x => x.datecell != d)
          = ls.filter (fun x => x.datecell != d) := by
        rw [List.filter_cons]
        simp [hd]
      rw [keepFirstAux.eq_2, if_pos hmem, hfilter]
      exact ih seen d
    · have hfilter : (l :: ls).filter (fun x => x.datecell != d)
          = l :: ls.filter (fun x => x.datecell != d) := by
        rw [List.filter_cons]
        simp [hd]
      rw [hfilter]
      by_cases hs : l.datecell ∈ seen
      · have hmem : l.datecell ∈ seen ++ [d] := List.mem_append_left _ hs
        rw [keepFirstAux.eq_2, if_pos hmem, keepFirstAux.eq_2, if_pos hs]
        exact ih seen d
      · have hmem : l.datecell ∉ seen ++ [d] := by
          rw [List.mem_append]
          rintro (h | h)
          · exact hs h
          · simp at h
            exact hd h
        rw [keepFirstAux.eq_2, if_neg hmem, keepFirstAux.eq_2, if_neg hs]
        have hiff : ∀ x, x ∈ (seen ++ [d]) ++ [l.datecell]
            ↔ x ∈ (seen ++ [l.datecell]) ++ [d] := by
          intro x
          simp only [List.mem_append, List.mem_singleton]
          tauto
        rw [keepFirstAux_congr ls _ _ hiff, ih (seen ++ [l.datecell]) d]

theorem dedupO_eq_keepFirstAux :
    ∀ (lines : List TxLine) (seenS : List String),
      dedupO (seenS.map some) lines = keepFirstAux seenS lines := by
  intro lines
  induction lines with
  | nil => intro s; rfl
  | cons l ls ih =>
    intro s
    by_cases h : l.datecell ∈ s
    · have h₂ : some l.datecell ∈ s.map some := List.mem_map_of_mem some h
      rw [dedupO.eq_2, if_pos h₂, keepFirstAux.eq_2, if_pos h]
      exact ih s
    · have h₂ : some l.datecell ∉ s.map some := by
        intro hm
        rcases List.mem_map.mp hm with ⟨x, hx, he⟩
        rw [Option.some.inj he] at hx
        exact h hx
      rw [dedupO.eq_2, if_neg h₂, keepFirstAux.eq_2, if_neg h]
      have hseen : s.map some ++ [some l.datecell] = (s ++ [l.datecell]).map some := by
        rw [List.map_append]
        rfl
      rw [hseen, ih (s ++ [l.datecell])]

theorem firstOccAux_spec :
    ∀ (ds : List String) (seen : List String),
      (firstOccAux seen ds).Nodup ∧ ∀ d ∈ firstOccAux seen ds, d ∉ seen := by
  intro ds
  induction ds with
  | nil => intro seen; exact ⟨List.nodup_nil, by intro d hd; cases hd⟩
  | cons d rest ih =>
    intro seen
    by_cases h : d ∈ seen
    · rw [firstOccAux.eq_2, if_pos h]
      exact ih seen
    · rw [firstOccAux.eq_2, if_neg h]
      obtain ⟨hnd, hni⟩ := ih (seen ++ [d])
      refine ⟨List.nodup_cons.mpr ⟨?_, hnd⟩, ?_⟩
      · intro hd
        have := hni d hd
        simp at this
      · intro x hx
        rcases List.mem_cons.mp hx with rfl | hx
        · exact h
        · intro hxs
          exact hni x hx (List.mem_append_left _ hxs)

theorem forall₂_map_eq {α β γ : Type} (R : α → β → Prop) (f : α → γ) (g : β → γ)
    (hfg : ∀ a b, R a b → g b = f a) :
    ∀ {l₁ : List α} {l₂ : List β}, List.Forall₂ R l₁ l₂ → l₂.map g = l₁.map f := by
  intro l₁ l₂ h
  induction h with
  | nil => rfl
  | cons ha _ ih => rw [List.map_cons, List.map_cons, hfg _ _ ha, ih]

theorem filterMap_of_map_some {α γ : Type} (f : α → Option γ) :
    ∀ (l : List α) (X : List γ), l.map f = X.map some → l.filterMap f = X := by
  intro l
  induction l with
  | nil =>
    intro X h
    cases X with
    | nil => rfl
    | cons x xs => simp at h
  | cons a l ih =>
    intro X h
    cases X with
    | nil => simp at h
    | cons x xs =>
      rw [List.map_cons, List.map_cons] at h
      have h1 : f a = some x := (List.cons.inj h).1
      have h2 : l.map f = xs.map some := (List.cons.inj h).2
      simp [List.filterMap_cons, h1, ih xs h2]

theorem get_record3 (d x y k : String) :
    StrMap.get [("date", d), ("changed", x), ("balance", y)] k
      = if k = "date" then some d
        else if k = "changed" then some x
        else if k = "balance" then some y else none := by
  by_cases h1 : k = "date"
  · subst h1; rfl
  · by_cases h2 : k = "changed"
    · subst h2; rfl
    · by_cases h3 : k = "balance"
      · subst h3; rfl
      · have e1 : (("date" : String) == k) = false :=
          beq_eq_false_iff_ne.mpr (fun he => h1 he.symm)
        have e2 : (("changed" : String) == k) = false :=
          beq_eq_false_iff_ne.mpr (fun he => h2 he.symm)
        have e3 : (("balance" : String) == k) = false :=
          beq_eq_false_iff_ne.mpr (fun he => h3 he.symm)
        rw [if_neg h1, if_neg h2, if_neg h3]
        simp only [StrMap.get, List.find?, e1, e2, e3]
        rfl

theorem mkRecord_none_shape (l : TxLine) (r : StrMap) (h : mkRecord none l = some r) :
    ∃ c b : Dec, parseDecimal (stripCurrency l.change) = some c ∧
      parseDecimal (stripCurrency l.balance6) = some b ∧
      r = [("date", l.datecell), ("changed", decStr c), ("balance", decStr b)] := by
  obtain ⟨c, b, hc, hb, rfl⟩ := mkRecord_shape none l r h
  exact ⟨c, b, hc, hb, rfl⟩

theorem mkRecord_true_of (l : TxLine) (c b : Dec)
    (hc : parseDecimal (stripCurrency l.change) = some c)
    (hb : parseDecimal (stripCurrency l.balance6) = some b) :
    mkRecord (some true) l = some [("date", l.datecell),
      ("changed", decStr (negFlip c)), ("balance", decStr (negFlip b))] := by
  rw [mkRecord, hc, hb]
  rfl

theorem optionMapM_negate :
    ∀ (ls : List TxLine) (rs : List StrMap),
      optionMapM (mkRecord none) ls = some rs →
      ∃ rs', optionMapM (mkRecord (some true)) ls = some rs' ∧
        List.Forall₂ negRel rs rs' := by
  intro ls
  induction ls with
  | nil =>
    intro rs h
    rw [optionMapM] at h
    rw [← Option.some.inj h]
    exact ⟨[], rfl, List.Forall₂.nil⟩
  | cons l ls ih =>
    intro rs h
    cases hf : mkRecord none l with
    | none => rw [optionMapM, hf] at h; cases h
    | some r0 =>
      rw [optionMapM, hf] at h
      cases hrest : optionMapM (mkRecord none) ls with
      | none => rw [hrest] at h; cases h
      | some rs0 =>
        rw [hrest] at h
        obtain ⟨c, b, hc, hb, hr0⟩ := mkRecord_none_shape l r0 hf
        obtain ⟨rs', hrs', hrel⟩ := ih rs0 hrest
        refine ⟨[("date", l.datecell), ("changed", decStr (negFlip c)),
          ("balance", decStr (negFlip b))] :: rs', ?_, ?_⟩
        · rw [optionMapM, mkRecord_true_of l c b hc hb, hrs']
          rfl
        · rw [← Option.some.inj h]
          refine List.Forall₂.cons ⟨?_, c, b, ?_, ?_, ?_, ?_⟩ hrel <;>
            first
            | (rw [hr0]; rfl)
            | rfl

example : get_table_data ⟨["a", "b"], [["1", " 2 "]]⟩
    = some [[("a", "1"), ("b", "2")]] := by decide

example : get_table_data ⟨["a"], [["1", "2"]]⟩ = none := by decide

example : parseDecimal "-12.5" = some ⟨-125, 1⟩ := by decide

example : parseDecimal "abc" = none := by decide

example : parseDecimal "" = none := by decide

example : decStr ⟨-125, 1⟩ = "-12.5" := by decide

example : decStr ⟨100, 0⟩ = "100" := by decide

example : decStr ⟨5, 2⟩ = "0.05" := by decide

example : stripCurrency " -50 CNY " = "-50" := by decide

example : get_account_data
    ⟨[⟨"2024-01-01", "100 CNY", "500 CNY"⟩,
      ⟨"2024-01-01", "999 CNY", "999 CNY"⟩,
      ⟨"2024-01-02", "-50 CNY", "450 CNY"⟩]⟩ ⟨none⟩
    = some [[("date", "2024-01-02"), ("changed", "-50"), ("balance", "450")],
            [("date", "2024-01-01"), ("changed", "100"), ("balance", "500")]] := by
  decide

example : get_account_data
    ⟨[⟨"2024-01-01", "100 CNY", "500 CNY"⟩]⟩ ⟨some true⟩
    = some [[("date", "2024-01-01"), ("changed", "-100"), ("balance", "-500")]] := by
  decide

/-! ## Claim C1 -/

/-- C1 is false on the code: a table whose single data row has two cells but
whose header has one title yields no record sequence at all (the
`titles.get(i).unwrap()` of main.rs line 112 panics), instead of silently
dropping the extra cell and still producing a record. -/
theorem extra_cells_claim_cex :
    get_table_data ⟨["h"], [["a", "b"]]⟩ = none := by decide

/-- C1 (amended): if any data row contains more data cells than there are
header titles, the table extractor fails at the first uncovered cell and
produces no record sequence at all — no record is emitted for any row. -/
theorem extra_cells_abort (t : HtmlTable)
    (h : ∃ row ∈ t.dataRows, t.headerCells.length < row.length) :
    get_table_data t = none :=
  buildRows_eq_none t.headerCells t.dataRows h

theorem extra_cells_abort_witness :
    get_table_data ⟨["h1", "h2"], [["a", "b", "c"]]⟩ = none :=
  extra_cells_abort ⟨["h1", "h2"], [["a", "b", "c"]]⟩ (by decide)

/-! ## Claim C3 -/

/-- C3 is false on the code: header-cell text is collected without trimming
(main.rs line 104 pushes `node.text().to_string()`), so a header cell whose
text is `" Name "` keys the record by `" Name "`, not by its trimmed text. -/
theorem titles_trimmed_claim_cex :
    get_table_data ⟨[" Name "], [["v"]]⟩ = some [[(" Name ", "v")]] ∧
    strTrim " Name " ≠ " Name " := by decide

/-- C3 (amended): the sequence of column titles used by the table extractor
is the raw (untrimmed) text of the header cells, in header-cell document
order: a covered data row produces a record whose keys, in order, are the
raw header texts of the occupied positions (values are still trimmed). -/
theorem titles_untrimmed (hs : List String) (row : List String)
    (hlen : row.length ≤ hs.length) (hnd : hs.Nodup) :
    get_table_data ⟨hs, [row]⟩
        = some [(hs.zip row).map (fun p => (p.1, strTrim p.2))] ∧
    ((hs.zip row).map (fun p => (p.1, strTrim p.2))).map Prod.fst
        = hs.take row.length := by
  constructor
  · show buildRows hs [row] = _
    have hrows : ∀ r ∈ [row], r.length ≤ hs.length := by
      intro r hr
      rw [List.mem_singleton.mp hr]
      exact hlen
    rw [buildRows_eq_some hs [row] hrows, List.map_cons, List.map_nil]
    rw [foldl_insTrim_fresh (hs.zip row) StrMap.empty (zip_keys_nodup hs row hnd)
      (fun p _ q hq => absurd hq (List.not_mem_nil q))]
    rfl
  · rw [List.map_map]
    show (hs.zip row).map Prod.fst = _
    exact map_fst_zip_take hs row

theorem titles_untrimmed_witness :
    get_table_data ⟨[" Name ", "B"], [["v", " w "]]⟩
        = some [([" Name ", "B"].zip ["v", " w "]).map (fun p => (p.1, strTrim p.2))] ∧
    (([" Name ", "B"].zip ["v", " w "]).map (fun p => (p.1, strTrim p.2))).map Prod.fst
        = [" Name ", "B"].take (["v", " w "] : List String).length :=
  titles_untrimmed [" Name ", "B"] ["v", " w "] (by decide) (by decide)

/-! ## Claim C4 -/

/-- C4: for a table whose data rows all have at most as many cells as there
are header titles, and whose titles are pairwise distinct, the extractor
produces exactly one record per data row in row order; each record's entries
are, in order, the titles of the occupied positions mapped to the trimmed
cell texts — titles with no cell in that row are absent.  A table with no
data rows yields the empty sequence, not an error. -/
theorem table_extraction_correct (t : HtmlTable)
    (hlen : ∀ row ∈ t.dataRows, row.length ≤ t.headerCells.length)
    (hnd : t.headerCells.Nodup) :
    get_table_data t = some (t.dataRows.map (fun row =>
      (t.headerCells.zip row).map (fun p => (p.1, strTrim p.2)))) := by
  show buildRows t.headerCells t.dataRows = _
  rw [buildRows_eq_some _ _ hlen]
  congr 1
  apply List.map_congr_left
  intro row _
  rw [foldl_insTrim_fresh (t.headerCells.zip row) StrMap.empty
    (zip_keys_nodup _ row hnd) (fun p _ q hq => absurd hq (List.not_mem_nil q))]
  rfl

theorem table_extraction_correct_witness :
    get_table_data ⟨["h1", "h2"], [[], ["a"], ["b", " c "]]⟩
      = some ([[], ["a"], ["b", " c "]].map (fun row =>
          ((["h1", "h2"] : List String).zip row).map (fun p => (p.1, strTrim p.2)))) :=
  table_extraction_correct ⟨["h1", "h2"], [[], ["a"], ["b", " c "]]⟩ (by decide) (by decide)

/-! ## Claim C2 -/

/-- C2 is false on the code: a change-amount cell whose stripped text does
not parse does not yield a `{success:false, error}` envelope — the
`.unwrap()` of main.rs lines 132-138 panics, so the handler produces no
response body at all (`none`). -/
theorem parse_failure_claim_cex :
    account (.ok ⟨[⟨"2024-01-01", "abc CNY", "1 CNY"⟩]⟩) ⟨none⟩ = none := by decide

/-- C2 (amended): when a transaction line that survives the date
deduplication has a change or balance text that does not parse as a signed
decimal after stripping the currency substring, the account handler aborts
with no envelope at all (the parse `.unwrap()` panics); only an upstream
transport error is converted into the `{success:false, error}` envelope. -/
theorem parse_failure_no_envelope (doc : AccountDoc) (params : AccountParams) (e : String)
    (h : ∃ l ∈ dedupO [] doc.lines,
      parseDecimal (stripCurrency l.change) = none ∨
        parseDecimal (stripCurrency l.balance6) = none) :
    account (.ok doc) params = none ∧
    account (.error e) params = some (.failure e) := by
  constructor
  · show Option.map HandlerResult.success (get_account_data doc params) = none
    rw [get_account_data_eq, acceptedTransactions]
    rcases h with ⟨l, hl, hp⟩
    rw [optionMapM_eq_none (mkRecord params.negate) _
      ⟨l, hl, mkRecord_eq_none params.negate l hp⟩]
    rfl
  · rfl

theorem parse_failure_no_envelope_witness :
    account (.ok ⟨[⟨"2024-01-02", "xx CNY", "1 CNY"⟩]⟩) ⟨some true⟩ = none ∧
    account (.error "boom") ⟨some true⟩ = some (.failure "boom") :=
  parse_failure_no_envelope ⟨[⟨"2024-01-02", "xx CNY", "1 CNY"⟩]⟩ ⟨some true⟩ "boom"
    (by decide)

/-! ## Claim C5 -/

/-- C5: the ledger deduplicates by date text with a keep-first policy.  Read
in document-encounter order (undoing the final reversal), the output records
are built line-for-line by the record constructor from exactly
`keepFirstByDate doc.lines`, the sublist of transaction lines keeping only
the first line per date — and `keepFirstByDate` obeys the law that the head
line always survives while every later line carrying its date is removed
entirely before processing continues.  Consequently the `"date"` values of
the output are the first occurrences of the line dates (reversed) and are
pairwise distinct. -/
theorem dedup_by_date_first_wins (doc : AccountDoc) (params : AccountParams)
    (recs : List StrMap) (h : get_account_data doc params = some recs) :
    List.Forall₂ (fun l r => mkRecord params.negate l = some r)
      (keepFirstByDate doc.lines) recs.reverse ∧
    (∀ (l : TxLine) (ls : List TxLine),
      keepFirstByDate (l :: ls)
        = l :: keepFirstByDate (ls.filter (fun x => x.datecell != l.datecell))) ∧
    recs.map (fun r => StrMap.get r "date")
        = ((firstOccurrences (doc.lines.map TxLine.datecell)).map some).reverse ∧
    (recs.filterMap (fun r => StrMap.get r "date")).Nodup := by
  rw [get_account_data_eq, acceptedTransactions] at h
  cases hm : optionMapM (mkRecord params.negate) (dedupO [] doc.lines) with
  | none => rw [hm] at h; cases h
  | some rs =>
    rw [hm] at h
    have hrecs : recs = rs.reverse := (Option.some.inj h).symm
    have hforall : List.Forall₂ (fun x y => mkRecord params.negate x = some y)
        (dedupO [] doc.lines) rs :=
      (optionMapM_eq_some_iff (mkRecord params.negate) (dedupO [] doc.lines) rs).mp hm
    have hkf : dedupO [] doc.lines = keepFirstByDate doc.lines := by
      have hx := dedupO_eq_keepFirstAux doc.lines []
      rw [List.map_nil] at hx
      exact hx
    have hmap : rs.map (fun r => StrMap.get r "date")
        = (dedupO [] doc.lines).map (fun l => some l.datecell) :=
      forall₂_map_eq (fun x y => mkRecord params.negate x = some y)
        (fun l => some l.datecell) (fun r => StrMap.get r "date")
        (fun l r hr => mkRecord_date params.negate l r hr) hforall
    have hd := dedupO_map_datecell doc.lines []
    rw [List.map_nil] at hd
    have hchain : (dedupO [] doc.lines).map (fun l => some l.datecell)
        = (firstOccurrences (doc.lines.map TxLine.datecell)).map some := by
      rw [firstOccurrences, ← hd, List.map_map]
      rfl
    refine ⟨?_, ?_, ?_, ?_⟩
    · rw [hrecs, List.reverse_reverse, ← hkf]
      exact hforall
    · intro l ls
      simp only [keepFirstByDate]
      rw [keepFirstAux.eq_2, if_neg (List.not_mem_nil l.datecell),
        keepFirstAux_filter ls [] l.datecell]
    · rw [hrecs, List.map_reverse, hmap, hchain]
    · have hfm : recs.filterMap (fun r => StrMap.get r "date")
          = (firstOccurrences (doc.lines.map TxLine.datecell)).reverse := by
        apply filterMap_of_map_some
        rw [hrecs, List.map_reverse, hmap, hchain, List.map_reverse]
      rw [hfm, List.nodup_reverse]
      exact (firstOccAux_spec _ []).1

theorem dedup_by_date_first_wins_witness :
    List.Forall₂ (fun l r => mkRecord (AccountParams.mk none).negate l = some r)
      (keepFirstByDate sampleDoc.lines) sampleRecs.reverse ∧
    (∀ (l : TxLine) (ls : List TxLine),
      keepFirstByDate (l :: ls)
        = l :: keepFirstByDate (ls.filter (fun x => x.datecell != l.datecell))) ∧
    sampleRecs.map (fun r => StrMap.get r "date")
        = ((firstOccurrences (sampleDoc.lines.map TxLine.datecell)).map some).reverse ∧
    (sampleRecs.filterMap (fun r => StrMap.get r "date")).Nodup :=
  dedup_by_date_first_wins sampleDoc ⟨none⟩ sampleRecs (by decide)

/-! ## Claim C6 -/

/-- C6: for every account document and parameter set, the transaction
sequence returned by the ledger extractor is exactly the reversal of the
accepted (post-deduplication) transaction records taken in
document-encounter order. -/
theorem ledger_is_reversed_accepted (doc : AccountDoc) (params : AccountParams) :
    get_account_data doc params =
      Option.map List.reverse (acceptedTransactions doc params.negate) :=
  get_account_data_eq doc params

/-! ## Claim C7 -/

/-- C7: extracting with `negate=true` succeeds exactly when extracting with
`negate` unset does, yields the same number of records, and position by
position the same date together with sign-flipped changed and balance
values; moreover the sign flip (`0 - x`, main.rs lines 147-150) applied
twice is the identity. -/
theorem negate_flips_each_transaction (doc : AccountDoc) (recs : List StrMap)
    (h : get_account_data doc ⟨none⟩ = some recs) :
    (∃ recs', get_account_data doc ⟨some true⟩ = some recs' ∧
      recs'.length = recs.length ∧
      ∀ (i : Nat) (h1 : i < recs.length) (h2 : i < recs'.length),
        StrMap.get (recs'.get ⟨i, h2⟩) "date" = StrMap.get (recs.get ⟨i, h1⟩) "date" ∧
        ∃ c b : Dec,
          StrMap.get (recs.get ⟨i, h1⟩) "changed" = some (decStr c) ∧
          StrMap.get (recs'.get ⟨i, h2⟩) "changed" = some (decStr (negFlip c)) ∧
          StrMap.get (recs.get ⟨i, h1⟩) "balance" = some (decStr b) ∧
          StrMap.get (recs'.get ⟨i, h2⟩) "balance" = some (decStr (negFlip b))) ∧
    ∀ d : Dec, negFlip (negFlip d) = d := by
  constructor
  · have h' : Option.map List.reverse
        (optionMapM (mkRecord none) (dedupO [] doc.lines)) = some recs := by
      rw [← acceptedTransactions]
      exact (get_account_data_eq doc ⟨none⟩).symm.trans h
    cases hm : optionMapM (mkRecord none) (dedupO [] doc.lines) with
    | none => rw [hm] at h'; cases h'
    | some rs =>
      rw [hm] at h'
      have hrecs : recs = rs.reverse := (Option.some.inj h').symm
      subst hrecs
      obtain ⟨rs', hrs', hrel⟩ := optionMapM_negate (dedupO [] doc.lines) rs hm
      refine ⟨rs'.reverse, ?_, ?_, ?_⟩
      · rw [get_account_data_eq doc ⟨some true⟩]
        show Option.map List.reverse
          (optionMapM (mkRecord (some true)) (dedupO [] doc.lines)) = _
        rw [hrs']
        rfl
      · simp [hrel.length_eq]
      · intro i h1 h2
        have hrev : List.Forall₂ negRel rs.reverse rs'.reverse :=
          List.forall₂_reverse_iff.mpr hrel
        exact (List.forall₂_iff_get.mp hrev).2 i h1 h2
  · intro d
    cases d with
    | mk m s =>
      simp only [negFlip]
      congr 1
      omega

theorem negate_flips_each_transaction_witness :
    (∃ recs', get_account_data sampleDoc ⟨some true⟩ = some recs' ∧
      recs'.length = sampleRecs.length ∧
      ∀ (i : Nat) (h1 : i < sampleRecs.length) (h2 : i < recs'.length),
        StrMap.get (recs'.get ⟨i, h2⟩) "date"
            = StrMap.get (sampleRecs.get ⟨i, h1⟩) "date" ∧
        ∃ c b : Dec,
          StrMap.get (sampleRecs.get ⟨i, h1⟩) "changed" = some (decStr c) ∧
          StrMap.get (recs'.get ⟨i, h2⟩) "changed" = some (decStr (negFlip c)) ∧
          StrMap.get (sampleRecs.get ⟨i, h1⟩) "balance" = some (decStr b) ∧
          StrMap.get (recs'.get ⟨i, h2⟩) "balance" = some (decStr (negFlip b))) ∧
    ∀ d : Dec, negFlip (negFlip d) = d :=
  negate_flips_each_transaction sampleDoc sampleRecs (by decide)

/-! ## Claim C8 -/

/-- C8: when the upstream envelope reports `success: false`, the query
handler returns a failure envelope whose error is the upstream message
verbatim when present, and the fixed string `"Something went wrong"` when
the upstream error is absent. -/
theorem upstream_error_propagated (r : QueryResult) (hfail : r.success = false) :
    (∀ m, r.error = some m → query (.ok r) = some (.failure m)) ∧
    (r.error = none → query (.ok r) = some (.failure "Something went wrong")) := by
  constructor
  · intro m hm
    simp [query, hfail, hm]
  · intro hm
    simp [query, hfail, hm]

theorem upstream_error_propagated_witness :
    query (.ok ⟨none, false, none⟩) = some (.failure "Something went wrong") :=
  (upstream_error_propagated ⟨none, false, none⟩ rfl).2 rfl

/-! ## Claim C9 -/

/-- C9: when the upstream envelope reports `success: true` but carries no
`data` field, the query handler returns the successful empty result, not an
error. -/
theorem missing_data_empty_success (r : QueryResult) (hs : r.success = true)
    (hd : r.data = none) :
    query (.ok r) = some (.success []) := by
  simp [query, hs, hd]

theorem missing_data_empty_success_witness :
    query (.ok ⟨none, true, none⟩) = some (.success []) :=
  missing_data_empty_success ⟨none, true, none⟩ rfl rfl

/-! ## Claim C10 -/

/-- C10: every record produced by the ledger extractor binds exactly the
three keys `"date"`, `"changed"` and `"balance"` — a lookup succeeds for
precisely these keys — regardless of the input document and of the `negate`
flag. -/
theorem ledger_record_key_set (doc : AccountDoc) (params : AccountParams)
    (recs : List StrMap) (h : get_account_data doc params = some recs) :
    ∀ r ∈ recs, ∀ k : String,
      (StrMap.get r k).isSome = true ↔ (k = "date" ∨ k = "changed" ∨ k = "balance") := by
  intro r hr k
  rw [get_account_data_eq, acceptedTransactions] at h
  cases hm : optionMapM (mkRecord params.negate) (dedupO [] doc.lines) with
  | none => rw [hm] at h; cases h
  | some rs =>
    rw [hm] at h
    have hmem : r ∈ rs := by
      have hrecs : recs = rs.reverse := (Option.some.inj h).symm
      rw [hrecs, List.mem_reverse] at hr
      exact hr
    obtain ⟨l, _, hml⟩ := optionMapM_mem _ _ _ r hm hmem
    obtain ⟨c, b, _, _, rfl⟩ := mkRecord_shape params.negate l r hml
    rw [get_record3]
    by_cases h1 : k = "date"
    · simp [h1]
    · by_cases h2 : k = "changed"
      · simp [h1, h2]
      · by_cases h3 : k = "balance"
        · simp [h1, h2, h3]
        · simp [h1, h2, h3]

theorem ledger_record_key_set_witness :
    (StrMap.get [("date", "2024-01-02"), ("changed", "-50"), ("balance", "450")]
      "memo").isSome = true
        ↔ ("memo" = "date" ∨ "memo" = "changed" ∨ "memo" = "balance") :=
  ledger_record_key_set sampleDoc ⟨none⟩ sampleRecs (by decide)
    [("date", "2024-01-02"), ("changed", "-50"), ("balance", "450")] (by decide) "memo"

end FavaQuery
